import Mathlib

/-!
Verification of the BLAKE2s implementation in sys/crypto/blake2s.c.

The C code is shallowly embedded: bytes are Nat values below 256, 32-bit
words are Nat values below 2^32 with explicit reduction modulo 2^32 where
the C arithmetic wraps, byte buffers are lists of bytes, and the mutable
hashing state is passed functionally.  The state's buf array is modelled
by the list of its currently valid bytes (the first buflen bytes); the C
code never reads buf past buflen before overwriting, so this is faithful.
Fallible initializers return an Option.

The round and mixing macros (BLAKE2S_ROUND, G) live in the header
crypto/blake2s.h, which is not part of this source tree; they are
modelled from the specification (ten rounds, column then diagonal G
mixing, rotations by 16, 12, 8, 7, message words selected by the sigma
schedule), and validated below against the published BLAKE2s test
vectors.
-/

set_option maxRecDepth 100000

namespace Blake2s

/-- Constants from crypto/blake2s.h. -/
def BLAKE2S_BLOCKBYTES : Nat := 64

def BLAKE2S_OUTBYTES : Nat := 32

def BLAKE2S_KEYBYTES : Nat := 32

/-- Modulus of 32-bit unsigned arithmetic, 2^32. -/
def U32 : Nat := 4294967296

/-- BLAKE2s IVs, from the table blake2s_IV in the source. -/
def blake2s_IV : List Nat :=
  [0x6A09E667, 0xBB67AE85, 0x3C6EF372, 0xA54FF53A,
   0x510E527F, 0x9B05688C, 0x1F83D9AB, 0x5BE0CD19]

/-- BLAKE2s sigma constants, from the table blake2s_sigma in the source. -/
def blake2s_sigma : List (List Nat) :=
  [[ 0,  1,  2,  3,  4,  5,  6,  7,  8,  9, 10, 11, 12, 13, 14, 15],
   [14, 10,  4,  8,  9, 15, 13,  6,  1, 12,  0,  2, 11,  7,  5,  3],
   [11,  8, 12,  0,  5,  2, 15, 13, 10, 14,  3,  6,  7,  1,  9,  4],
   [ 7,  9,  3,  1, 13, 12, 11, 14,  2,  6,  5, 10,  4,  0, 15,  8],
   [ 9,  0,  5,  7,  2,  4, 10, 15, 14,  1, 11, 12,  6,  8,  3, 13],
   [ 2, 12,  6, 10,  0, 11,  8,  3,  4, 13,  7,  5, 15, 14,  1,  9],
   [12,  5,  1, 15, 14, 13,  4, 10,  0,  7,  6,  3,  9,  2,  8, 11],
   [13, 11,  7, 14, 12,  1,  3,  9,  5,  0, 15,  4,  8,  6,  2, 10],
   [ 6, 15, 14,  9, 11,  3,  0,  8, 12,  2, 13,  7,  1,  4, 10,  5],
   [10,  2,  8,  4,  7,  6,  1,  5, 15, 11,  9, 14,  3, 12, 13,  0]]

/-- The source's load32 is a raw word load, return asterisk-cast of src to
uint32_t: the byte order it reads is the byte order of the host machine.
This definition gives the semantics of that cast on a four-byte buffer for
both possible hosts: on a little-endian host the first byte is the least
significant, on a big-endian host the first byte is the most significant. -/
def load32_host (hostBigEndian : Bool) (b : List Nat) : Nat :=
  if hostBigEndian then
    b.getD 3 0 + 256 * b.getD 2 0 + 65536 * b.getD 1 0 + 16777216 * b.getD 0 0
  else
    b.getD 0 0 + 256 * b.getD 1 0 + 65536 * b.getD 2 0 + 16777216 * b.getD 3 0

/-- The load32 behaviour on a little-endian host (the behaviour that
produces correct BLAKE2s digests); the rest of the development models a
little-endian host. -/
def load32 (b : List Nat) : Nat := load32_host false b

/-- The source's store32 is a raw word store, asterisk-cast of dst to
uint32_t: the byte order written is the host's, as for load32_host. -/
def store32_host (hostBigEndian : Bool) (w : Nat) : List Nat :=
  if hostBigEndian then
    [(w >>> 24) % 256, (w >>> 16) % 256, (w >>> 8) % 256, w % 256]
  else
    [w % 256, (w >>> 8) % 256, (w >>> 16) % 256, (w >>> 24) % 256]

/-- The store32 behaviour on a little-endian host. -/
def store32 (w : Nat) : List Nat := store32_host false w

/-- rotr32 from the source: (w >> c) | (w << (32 - c)) in uint32
arithmetic. -/
def rotr32 (w c : Nat) : Nat :=
  (w >>> c) ||| ((w <<< (32 - c)) % U32)

/-- The BLAKE2s hashing state from crypto/blake2s.h: eight chaining words
h, the split 64-bit counter t[0], t[1], the finalization flags f[0], f[1],
the data buffer (the valid prefix of the 2 x 64 byte array, so buflen is
buf.length), and the last_node flag. -/
structure blake2s_state where
  h : List Nat
  t0 : Nat
  t1 : Nat
  f0 : Nat
  f1 : Nat
  buf : List Nat
  last_node : Bool
deriving DecidableEq, Repr

/-- blake2s_set_lastnode: sets f[1] to all ones. -/
def blake2s_set_lastnode (S : blake2s_state) : blake2s_state :=
  { S with f1 := U32 - 1 }

/-- blake2s_set_lastblock: sets f[1] to all ones when last_node is set,
then sets f[0] to all ones. -/
def blake2s_set_lastblock (S : blake2s_state) : blake2s_state :=
  let S := if S.last_node then blake2s_set_lastnode S else S
  { S with f0 := U32 - 1 }

/-- blake2s_increment_counter from the source: t[0] += inc with 32-bit
wraparound, then t[1] += (t[0] < inc). -/
def blake2s_increment_counter (S : blake2s_state) (inc : Nat) : blake2s_state :=
  let t0' := (S.t0 + inc) % U32
  { S with t0 := t0', t1 := (S.t1 + (if t0' < inc then 1 else 0)) % U32 }

/-- Modelled from the spec: the G mixing macro in crypto/blake2s.h (not in
this source tree).  Mixes working-vector entries a, b, c, d with the two
message words selected by the sigma schedule for round r, position i, via
32-bit addition, xor and right rotations by 16, 12, 8, 7. -/
def blake2s_G (m : List Nat) (r i : Nat) (v : List Nat) (a b c d : Nat) : List Nat :=
  let sr := blake2s_sigma.getD r []
  let va := (v.getD a 0 + v.getD b 0 + m.getD (sr.getD (2 * i) 0) 0) % U32
  let vd := rotr32 (v.getD d 0 ^^^ va) 16
  let vc := (v.getD c 0 + vd) % U32
  let vb := rotr32 (v.getD b 0 ^^^ vc) 12
  let va' := (va + vb + m.getD (sr.getD (2 * i + 1) 0) 0) % U32
  let vd' := rotr32 (vd ^^^ va') 8
  let vc' := (vc + vd') % U32
  let vb' := rotr32 (vb ^^^ vc') 7
  (((v.set a va').set b vb').set c vc').set d vd'

/-- Modelled from the spec: the BLAKE2S_ROUND macro in crypto/blake2s.h
(not in this source tree).  One round applies G to the four columns of the
4 x 4 arrangement of the working vector, then to its four diagonals. -/
def blake2s_round (m : List Nat) (r : Nat) (v : List Nat) : List Nat :=
  let v := blake2s_G m r 0 v 0 4 8 12
  let v := blake2s_G m r 1 v 1 5 9 13
  let v := blake2s_G m r 2 v 2 6 10 14
  let v := blake2s_G m r 3 v 3 7 11 15
  let v := blake2s_G m r 4 v 0 5 10 15
  let v := blake2s_G m r 5 v 1 6 11 12
  let v := blake2s_G m r 6 v 2 7 8 13
  let v := blake2s_G m r 7 v 3 4 9 14
  v

/-- blake2s_compress from the source: loads the sixteen little-endian
message words from the 64-byte block, builds the 16-word working vector
from h, the IV, and the counter and flag words xored with IV words 4..7,
runs the ten rounds, and folds the working vector back into h. -/
def blake2s_compress (S : blake2s_state) (block : List Nat) : blake2s_state :=
  let m : List Nat := (List.range 16).map (fun i => load32 (block.drop (4 * i)))
  let v : List Nat :=
    S.h ++
    [blake2s_IV.getD 0 0, blake2s_IV.getD 1 0, blake2s_IV.getD 2 0, blake2s_IV.getD 3 0,
     S.t0 ^^^ blake2s_IV.getD 4 0, S.t1 ^^^ blake2s_IV.getD 5 0,
     S.f0 ^^^ blake2s_IV.getD 6 0, S.f1 ^^^ blake2s_IV.getD 7 0]
  let v := (List.range 10).foldl (fun v r => blake2s_round m r v) v
  { S with h := (List.range 8).map (fun i => S.h.getD i 0 ^^^ v.getD i 0 ^^^ v.getD (i + 8) 0) }

/-- The BLAKE2s parameter block from crypto/blake2s.h; multi-byte fields
that the source stores bytewise (leaf_length via store32, node_offset via
store48, salt, personal) are kept as byte lists. -/
structure blake2s_param where
  digest_length : Nat
  key_length : Nat
  fanout : Nat
  depth : Nat
  leaf_length : List Nat
  node_offset : List Nat
  node_depth : Nat
  inner_length : Nat
  salt : List Nat
  personal : List Nat
deriving DecidableEq, Repr

/-- The serialized 32-byte layout of the parameter block, in field order. -/
def blake2s_param.bytes (P : blake2s_param) : List Nat :=
  [P.digest_length, P.key_length, P.fanout, P.depth] ++
  P.leaf_length ++ P.node_offset ++ [P.node_depth, P.inner_length] ++
  P.salt ++ P.personal

/-- blake2s_init0: zeroes the state and loads the IV into h. -/
def blake2s_init0 : blake2s_state :=
  { h := blake2s_IV, t0 := 0, t1 := 0, f0 := 0, f1 := 0, buf := [], last_node := false }

/-- blake2s_init_param: init0, then xor each h word with the corresponding
little-endian 32-bit word of the serialized parameter block. -/
def blake2s_init_param (P : blake2s_param) : blake2s_state :=
  let S := blake2s_init0
  { S with h := (List.range 8).map (fun i => S.h.getD i 0 ^^^ load32 (P.bytes.drop (4 * i))) }

/-- The parameter block built by blake2s_init and blake2s_init_key: given
digest length and key length, fanout = depth = 1, every other field zero. -/
def blake2s_param_seq (digest_length key_length : Nat) : blake2s_param :=
  { digest_length := digest_length, key_length := key_length,
    fanout := 1, depth := 1,
    leaf_length := List.replicate 4 0, node_offset := List.replicate 6 0,
    node_depth := 0, inner_length := 0,
    salt := List.replicate 8 0, personal := List.replicate 8 0 }

/-- blake2s_init from the source: fails (returns -1, here none) when
outlen is 0 or exceeds BLAKE2S_OUTBYTES, else initializes from the
sequential parameter block with key_length 0. -/
def blake2s_init (outlen : Nat) : Option blake2s_state :=
  if outlen = 0 ∨ outlen > BLAKE2S_OUTBYTES then none
  else some (blake2s_init_param (blake2s_param_seq outlen 0))

/-- One iteration of the while loop of blake2s_update, indexed by a fuel
bound on the number of iterations so that the recursion is structural.
While input remains: with left = buflen and fill =
2 * BLAKE2S_BLOCKBYTES - left, if the input exceeds fill, the buffer is
filled to capacity, the counter incremented by BLAKE2S_BLOCKBYTES, the
first block of the buffer compressed, and the buffer shifted left by one
block; otherwise the input is appended to the buffer and the loop ends.
The theorem blake2s_update_eq below certifies that with the fuel chosen by
blake2s_update the fuel never runs out: blake2s_update satisfies exactly
the loop's recurrence. -/
def blake2s_update_go : Nat → blake2s_state → List Nat → blake2s_state
  | 0, S, _ => S
  | fuel + 1, S, inp =>
    if inp = [] then S
    else
      let fill := 2 * BLAKE2S_BLOCKBYTES - S.buf.length
      if inp.length > fill then
        let filled := S.buf ++ inp.take fill
        let S1 := blake2s_increment_counter { S with buf := filled } BLAKE2S_BLOCKBYTES
        let S2 := blake2s_compress S1 (filled.take BLAKE2S_BLOCKBYTES)
        blake2s_update_go fuel { S2 with buf := filled.drop BLAKE2S_BLOCKBYTES } (inp.drop fill)
      else
        { S with buf := S.buf ++ inp }

/-- blake2s_update from the source, as the loop blake2s_update_go run with
a sufficient iteration bound. -/
def blake2s_update (S : blake2s_state) (inp : List Nat) : blake2s_state :=
  blake2s_update_go (inp.length + S.buf.length + 1) S inp

/-- blake2s_init_key from the source: fails when outlen is 0 or exceeds
BLAKE2S_OUTBYTES, or when the key pointer is null, or keylen is 0, or
keylen exceeds BLAKE2S_KEYBYTES; otherwise initializes from the sequential
parameter block with key_length keylen and feeds the key, zero-padded to
one full block, through blake2s_update. -/
def blake2s_init_key (outlen : Nat) (key : Option (List Nat)) (keylen : Nat) :
    Option blake2s_state :=
  if outlen = 0 ∨ outlen > BLAKE2S_OUTBYTES then none
  else if key = none ∨ keylen = 0 ∨ keylen > BLAKE2S_KEYBYTES then none
  else
    let S := blake2s_init_param (blake2s_param_seq outlen keylen)
    let block := ((key.getD []).take keylen ++
      List.replicate BLAKE2S_BLOCKBYTES 0).take BLAKE2S_BLOCKBYTES
    some (blake2s_update S block)

/-- The 32-byte serialization of the eight chaining words, little-endian,
as written to the temporary buffer by blake2s_final. -/
def blake2s_out_bytes (S : blake2s_state) : List Nat :=
  ((List.range 8).map (fun i => store32 (S.h.getD i 0))).flatten

/-- blake2s_final from the source: if more than one block is buffered,
increment the counter by one block, compress the first block and shift the
remainder down; then increment the counter by the remaining buflen (cast
to uint32), set the last-block flag, zero-pad the buffer, compress it, and
copy the first outlen bytes of the serialized chaining words out. -/
def blake2s_final (S : blake2s_state) (outlen : Nat) : List Nat :=
  let S :=
    if S.buf.length > BLAKE2S_BLOCKBYTES then
      let S1 := blake2s_increment_counter S BLAKE2S_BLOCKBYTES
      let S2 := blake2s_compress S1 (S1.buf.take BLAKE2S_BLOCKBYTES)
      { S2 with buf := S2.buf.drop BLAKE2S_BLOCKBYTES }
    else S
  let S := blake2s_increment_counter S (S.buf.length % U32)
  let S := blake2s_set_lastblock S
  let padded := S.buf ++ List.replicate (2 * BLAKE2S_BLOCKBYTES - S.buf.length) 0
  let S := blake2s_compress S (padded.take BLAKE2S_BLOCKBYTES)
  (blake2s_out_bytes S).take outlen

/-- blake2s, the one-shot hash from the source.  The null checks on in and
out do not arise in the embedding (the input list is always present); a
null key forces keylen to 0; then a positive keylen dispatches to
blake2s_init_key and a zero one to blake2s_init, followed by one update
over the whole input and finalization. -/
def blake2s (input : List Nat) (key : Option (List Nat)) (outlen keylen : Nat) :
    Option (List Nat) :=
  let keylen := match key with | none => 0 | some _ => keylen
  if keylen > 0 then
    match blake2s_init_key outlen key keylen with
    | none => none
    | some S => some (blake2s_final (blake2s_update S input) outlen)
  else
    match blake2s_init outlen with
    | none => none
    | some S => some (blake2s_final (blake2s_update S input) outlen)

/-- The hexadecimal digit sequence of a byte string, two digits (values
0..15) per byte, high digit first: the form in which the reference digests
are quoted. -/
def hexDigits (bs : List Nat) : List Nat :=
  (bs.map (fun b => [b / 16, b % 16])).flatten

/-- The manual hashing sequence of the spec: keyed initialization via
blake2s_init_key when keylen is positive, unkeyed via blake2s_init when it
is zero, then one blake2s_update per chunk in order, then
blake2s_final. -/
def blake2s_incremental (outlen : Nat) (key : Option (List Nat)) (keylen : Nat)
    (chunks : List (List Nat)) : Option (List Nat) :=
  match (if keylen > 0 then blake2s_init_key outlen key keylen else blake2s_init outlen) with
  | none => none
  | some S => some (blake2s_final (chunks.foldl blake2s_update S) outlen)

/-- blake2s_update_go instrumented to also record every block handed to
the compression function, in order, for stating the
compression-granularity invariant. -/
def blake2s_update_trace_go : Nat → blake2s_state → List Nat → blake2s_state × List (List Nat)
  | 0, S, _ => (S, [])
  | fuel + 1, S, inp =>
    if inp = [] then (S, [])
    else
      let fill := 2 * BLAKE2S_BLOCKBYTES - S.buf.length
      if inp.length > fill then
        let filled := S.buf ++ inp.take fill
        let S1 := blake2s_increment_counter { S with buf := filled } BLAKE2S_BLOCKBYTES
        let S2 := blake2s_compress S1 (filled.take BLAKE2S_BLOCKBYTES)
        let rest := blake2s_update_trace_go fuel
          { S2 with buf := filled.drop BLAKE2S_BLOCKBYTES } (inp.drop fill)
        (rest.1, filled.take BLAKE2S_BLOCKBYTES :: rest.2)
      else
        ({ S with buf := S.buf ++ inp }, [])

/-- blake2s_update together with the blocks it compresses. -/
def blake2s_update_trace (S : blake2s_state) (inp : List Nat) :
    blake2s_state × List (List Nat) :=
  blake2s_update_trace_go (inp.length + S.buf.length + 1) S inp

/-- blake2s_final together with the blocks it compresses. -/
def blake2s_final_trace (S : blake2s_state) (outlen : Nat) : List Nat × List (List Nat) :=
  let pre :=
    if S.buf.length > BLAKE2S_BLOCKBYTES then
      let S1 := blake2s_increment_counter S BLAKE2S_BLOCKBYTES
      let S2 := blake2s_compress S1 (S1.buf.take BLAKE2S_BLOCKBYTES)
      (({ S2 with buf := S2.buf.drop BLAKE2S_BLOCKBYTES } : blake2s_state),
        [S1.buf.take BLAKE2S_BLOCKBYTES])
    else (S, [])
  let Sa := blake2s_increment_counter pre.1 (pre.1.buf.length % U32)
  let Sb := blake2s_set_lastblock Sa
  let padded := Sb.buf ++ List.replicate (2 * BLAKE2S_BLOCKBYTES - Sb.buf.length) 0
  let Sc := blake2s_compress Sb (padded.take BLAKE2S_BLOCKBYTES)
  ((blake2s_out_bytes Sc).take outlen, pre.2 ++ [padded.take BLAKE2S_BLOCKBYTES])

/-! Basic facts about the state-transforming components: compression and
counter increments never touch the data buffer, and increments never touch
the chaining words or flags. -/

theorem blake2s_compress_buf (S : blake2s_state) (b : List Nat) :
    (blake2s_compress S b).buf = S.buf := rfl

theorem blake2s_increment_counter_buf (S : blake2s_state) (inc : Nat) :
    (blake2s_increment_counter S inc).buf = S.buf := rfl

theorem blake2s_increment_counter_h (S : blake2s_state) (inc : Nat) :
    (blake2s_increment_counter S inc).h = S.h := rfl

/-! The iteration bound of blake2s_update_go is irrelevant as long as it
dominates the loop measure: every recursive call shrinks the unconsumed
input plus the buffered bytes by exactly one block. -/

theorem blake2s_update_go_congr :
    ∀ (fuel₁ fuel₂ : Nat) (S : blake2s_state) (inp : List Nat),
      inp.length + S.buf.length < BLAKE2S_BLOCKBYTES * fuel₁ →
      inp.length + S.buf.length < BLAKE2S_BLOCKBYTES * fuel₂ →
      blake2s_update_go fuel₁ S inp = blake2s_update_go fuel₂ S inp
  | 0, _, S, inp, h₁, _ => absurd h₁ (by simp [BLAKE2S_BLOCKBYTES])
  | _ + 1, 0, S, inp, _, h₂ => absurd h₂ (by simp [BLAKE2S_BLOCKBYTES])
  | fuel₁ + 1, fuel₂ + 1, S, inp, h₁, h₂ => by
    simp only [blake2s_update_go]
    by_cases hnil : inp = []
    · simp [hnil]
    · simp only [hnil, if_false]
      by_cases hfill : inp.length > 2 * BLAKE2S_BLOCKBYTES - S.buf.length
      · simp only [hfill, if_true]
        refine blake2s_update_go_congr fuel₁ fuel₂ _ _ ?_ ?_ <;>
        · simp only [List.length_drop, List.length_append, List.length_take,
            BLAKE2S_BLOCKBYTES] at *
          omega
      · simp [hfill]

/-- blake2s_update satisfies exactly the recurrence of the source's while
loop: this certifies that the iteration bound chosen in blake2s_update is
always sufficient. -/
theorem blake2s_update_eq (S : blake2s_state) (inp : List Nat) :
    blake2s_update S inp =
      if inp = [] then S
      else
        let fill := 2 * BLAKE2S_BLOCKBYTES - S.buf.length
        if inp.length > fill then
          let filled := S.buf ++ inp.take fill
          blake2s_update
            { blake2s_compress
                (blake2s_increment_counter { S with buf := filled } BLAKE2S_BLOCKBYTES)
                (filled.take BLAKE2S_BLOCKBYTES) with
              buf := filled.drop BLAKE2S_BLOCKBYTES }
            (inp.drop fill)
        else { S with buf := S.buf ++ inp } := by
  conv_lhs => simp only [blake2s_update, blake2s_update_go]
  by_cases hnil : inp = []
  · simp [hnil]
  · simp only [hnil, if_false]
    by_cases hfill : inp.length > 2 * BLAKE2S_BLOCKBYTES - S.buf.length
    · simp only [hfill, if_true]
      unfold blake2s_update
      refine blake2s_update_go_congr _ _ _ _ ?_ ?_ <;>
      · simp only [List.length_drop, List.length_append, List.length_take,
          BLAKE2S_BLOCKBYTES] at *
        omega
    · simp [hfill]

/-- Update when the remaining input fits within the buffer capacity: the
bytes are only appended, with no compression and no counter change. -/
theorem blake2s_update_fits (S : blake2s_state) (inp : List Nat)
    (h : inp.length ≤ 2 * BLAKE2S_BLOCKBYTES - S.buf.length) :
    blake2s_update S inp = { S with buf := S.buf ++ inp } := by
  rw [blake2s_update_eq]
  by_cases hnil : inp = []
  · subst hnil
    cases S
    simp
  · simp only [hnil, if_false]
    rw [if_neg (by omega)]

/-- Update when the input overflows the buffer capacity: one
fill-increment-compress-shift iteration followed by the rest of the
loop. -/
theorem blake2s_update_step (S : blake2s_state) (inp : List Nat)
    (h : inp.length > 2 * BLAKE2S_BLOCKBYTES - S.buf.length) :
    blake2s_update S inp =
      blake2s_update
        { blake2s_compress
            (blake2s_increment_counter
              { S with buf := S.buf ++ inp.take (2 * BLAKE2S_BLOCKBYTES - S.buf.length) }
              BLAKE2S_BLOCKBYTES)
            ((S.buf ++ inp.take (2 * BLAKE2S_BLOCKBYTES - S.buf.length)).take BLAKE2S_BLOCKBYTES) with
          buf := (S.buf ++ inp.take (2 * BLAKE2S_BLOCKBYTES - S.buf.length)).drop BLAKE2S_BLOCKBYTES }
        (inp.drop (2 * BLAKE2S_BLOCKBYTES - S.buf.length)) := by
  have hnil : inp ≠ [] := by
    intro hh
    subst hh
    simp at h
  rw [blake2s_update_eq]
  simp only [hnil, if_false, if_pos h]

/-- Zero-length input is a no-op. -/
theorem blake2s_update_nil (S : blake2s_state) : blake2s_update S [] = S := by
  rw [blake2s_update_fits S [] (by simp)]
  cases S
  simp

theorem blake2s_update_append_aux (n : Nat) :
    ∀ (S : blake2s_state) (a b : List Nat), a.length + S.buf.length ≤ n →
      blake2s_update S (a ++ b) = blake2s_update (blake2s_update S a) b := by
  induction n with
  | zero =>
    intro S a b hn
    have ha : a = [] := List.eq_nil_of_length_eq_zero (by omega)
    subst ha
    rw [blake2s_update_nil, List.nil_append]
  | succ n ih =>
    intro S a b hn
    by_cases ha : a = []
    · subst ha
      rw [blake2s_update_nil, List.nil_append]
    · by_cases hfa : a.length > 2 * BLAKE2S_BLOCKBYTES - S.buf.length
      · -- the first compression consumes only bytes of a: recurse on its tail
        have hfab : (a ++ b).length > 2 * BLAKE2S_BLOCKBYTES - S.buf.length := by
          simp only [List.length_append]
          omega
        rw [blake2s_update_step S (a ++ b) hfab, blake2s_update_step S a hfa,
          List.take_append_of_le_length (Nat.le_of_lt hfa),
          List.drop_append_of_le_length (Nat.le_of_lt hfa)]
        exact ih _ _ _ (by
          simp only [List.length_drop, List.length_append, List.length_take,
            BLAKE2S_BLOCKBYTES] at hn hfa ⊢
          omega)
      · rw [blake2s_update_fits S a (by omega)]
        by_cases hfab : (a ++ b).length ≤ 2 * BLAKE2S_BLOCKBYTES - S.buf.length
        · -- everything fits: both sides only append
          rw [blake2s_update_fits S (a ++ b) hfab,
            blake2s_update_fits _ b (by
              simp only [List.length_append] at hfab ⊢
              omega)]
          simp
        · -- the first compression straddles the end of a and start of b:
          -- both sides perform it with identical arguments
          have hstep1 : (a ++ b).length > 2 * BLAKE2S_BLOCKBYTES - S.buf.length := by
            omega
          have hstep2 : b.length >
              2 * BLAKE2S_BLOCKBYTES - ({ S with buf := S.buf ++ a } : blake2s_state).buf.length := by
            simp only [List.length_append] at hfab ⊢
            omega
          rw [blake2s_update_step S (a ++ b) hstep1, blake2s_update_step _ b hstep2]
          have htake : (a ++ b).take (2 * BLAKE2S_BLOCKBYTES - S.buf.length) =
              a ++ b.take ((2 * BLAKE2S_BLOCKBYTES - S.buf.length) - a.length) := by
            rw [List.take_append_eq_append_take, List.take_of_length_le (by omega)]
          have hdrop : (a ++ b).drop (2 * BLAKE2S_BLOCKBYTES - S.buf.length) =
              b.drop ((2 * BLAKE2S_BLOCKBYTES - S.buf.length) - a.length) := by
            rw [List.drop_append_eq_append_drop, List.drop_of_length_le (by omega),
              List.nil_append]
          have harith : 2 * BLAKE2S_BLOCKBYTES -
              ({ S with buf := S.buf ++ a } : blake2s_state).buf.length =
              (2 * BLAKE2S_BLOCKBYTES - S.buf.length) - a.length := by
            simp only [List.length_append]
            omega
          rw [htake, hdrop, harith]
          simp [List.append_assoc]

/-- Updating with a concatenation equals updating with the parts in
order: the buffered streaming loop is oblivious to chunk boundaries. -/
theorem blake2s_update_append (S : blake2s_state) (a b : List Nat) :
    blake2s_update S (a ++ b) = blake2s_update (blake2s_update S a) b :=
  blake2s_update_append_aux (a.length + S.buf.length) S a b le_rfl

/-- A sequence of updates, one chunk at a time, equals a single update on
the concatenation of the chunks. -/
theorem blake2s_update_foldl (chunks : List (List Nat)) :
    ∀ S : blake2s_state, chunks.foldl blake2s_update S = blake2s_update S chunks.flatten := by
  induction chunks with
  | nil =>
    intro S
    simp [blake2s_update_nil]
  | cons c cs ih =>
    intro S
    simp only [List.foldl_cons, List.flatten_cons]
    rw [ih, ← blake2s_update_append]

/-! Setting the last-block flag only touches the flags. -/

theorem blake2s_set_lastblock_buf (S : blake2s_state) :
    (blake2s_set_lastblock S).buf = S.buf := by
  simp only [blake2s_set_lastblock, blake2s_set_lastnode]
  split <;> rfl

theorem blake2s_set_lastblock_t0 (S : blake2s_state) :
    (blake2s_set_lastblock S).t0 = S.t0 := by
  simp only [blake2s_set_lastblock, blake2s_set_lastnode]
  split <;> rfl

theorem blake2s_set_lastblock_t1 (S : blake2s_state) :
    (blake2s_set_lastblock S).t1 = S.t1 := by
  simp only [blake2s_set_lastblock, blake2s_set_lastnode]
  split <;> rfl

theorem blake2s_set_lastblock_f0 (S : blake2s_state) :
    (blake2s_set_lastblock S).f0 = U32 - 1 := rfl

theorem blake2s_set_lastblock_f1 (S : blake2s_state) (h : S.last_node = false) :
    (blake2s_set_lastblock S).f1 = S.f1 := by
  simp only [blake2s_set_lastblock, blake2s_set_lastnode, h]
  rfl

/-! The instrumented loop computes the same state as the plain one, and,
starting from a state respecting the buffer bound, every block it ever
hands to the compression function is exactly one block long. -/

theorem blake2s_update_trace_go_fst :
    ∀ (fuel : Nat) (S : blake2s_state) (inp : List Nat),
      (blake2s_update_trace_go fuel S inp).1 = blake2s_update_go fuel S inp
  | 0, _, _ => rfl
  | fuel + 1, S, inp => by
    simp only [blake2s_update_trace_go, blake2s_update_go]
    by_cases hnil : inp = []
    · simp [hnil]
    · simp only [hnil, if_false]
      by_cases hfill : inp.length > 2 * BLAKE2S_BLOCKBYTES - S.buf.length
      · simp only [hfill, if_true]
        exact blake2s_update_trace_go_fst fuel _ _
      · simp [hfill]

theorem blake2s_update_trace_fst (S : blake2s_state) (inp : List Nat) :
    (blake2s_update_trace S inp).1 = blake2s_update S inp :=
  blake2s_update_trace_go_fst _ _ _

theorem blake2s_update_trace_go_blocks (fuel : Nat) :
    ∀ (S : blake2s_state) (inp : List Nat), S.buf.length ≤ 2 * BLAKE2S_BLOCKBYTES →
      (blake2s_update_trace_go fuel S inp).1.buf.length ≤ 2 * BLAKE2S_BLOCKBYTES ∧
      ∀ blk ∈ (blake2s_update_trace_go fuel S inp).2, blk.length = BLAKE2S_BLOCKBYTES := by
  induction fuel with
  | zero =>
    intro S inp h
    exact ⟨h, by simp [blake2s_update_trace_go]⟩
  | succ fuel ih =>
    intro S inp h
    by_cases hnil : inp = []
    · simp [blake2s_update_trace_go, hnil, h]
    · by_cases hfill : inp.length > 2 * BLAKE2S_BLOCKBYTES - S.buf.length
      · simp only [blake2s_update_trace_go, hnil, if_false, hfill, if_true]
        have hb' : ((S.buf ++ inp.take (2 * BLAKE2S_BLOCKBYTES - S.buf.length)).drop
            BLAKE2S_BLOCKBYTES).length ≤ 2 * BLAKE2S_BLOCKBYTES := by
          simp only [List.length_drop, List.length_append, List.length_take,
            BLAKE2S_BLOCKBYTES] at h hfill ⊢
          omega
        refine ⟨(ih _ _ hb').1, ?_⟩
        intro blk hblk
        rcases List.mem_cons.mp hblk with h1 | h2
        · subst h1
          simp only [List.length_take, List.length_append, BLAKE2S_BLOCKBYTES] at h hfill ⊢
          omega
        · exact (ih _ _ hb').2 blk h2
      · simp only [blake2s_update_trace_go, hnil, if_false, hfill]
        refine ⟨?_, by simp⟩
        simp only [List.length_append]
        simp only [BLAKE2S_BLOCKBYTES] at h hfill ⊢
        omega

theorem blake2s_final_trace_fst (S : blake2s_state) (outlen : Nat) :
    (blake2s_final_trace S outlen).1 = blake2s_final S outlen := by
  simp only [blake2s_final_trace, blake2s_final]
  by_cases hgt : S.buf.length > BLAKE2S_BLOCKBYTES
  · simp [hgt]
  · simp [hgt]

theorem blake2s_final_trace_blocks (S : blake2s_state) (outlen : Nat)
    (h : S.buf.length ≤ 2 * BLAKE2S_BLOCKBYTES) :
    ∀ blk ∈ (blake2s_final_trace S outlen).2, blk.length = BLAKE2S_BLOCKBYTES := by
  intro blk hblk
  simp only [blake2s_final_trace] at hblk
  by_cases hgt : S.buf.length > BLAKE2S_BLOCKBYTES
  · rw [if_pos hgt] at hblk
    simp only [blake2s_set_lastblock_buf, blake2s_increment_counter, blake2s_compress,
      List.mem_append, List.mem_cons, List.not_mem_nil, or_false] at hblk
    rcases hblk with h1 | h2
    · subst h1
      simp only [List.length_take, BLAKE2S_BLOCKBYTES] at h hgt ⊢
      omega
    · subst h2
      simp only [List.length_take, List.length_append, List.length_replicate,
        List.length_drop, BLAKE2S_BLOCKBYTES] at h hgt ⊢
      omega
  · rw [if_neg hgt] at hblk
    simp only [blake2s_set_lastblock_buf, blake2s_increment_counter, List.nil_append,
      List.mem_cons, List.not_mem_nil, or_false] at hblk
    subst hblk
    simp only [List.length_take, List.length_append, List.length_replicate,
      BLAKE2S_BLOCKBYTES] at h hgt ⊢
    omega

/-- The serialization written by blake2s_final to its temporary buffer is
always exactly 32 bytes. -/
theorem blake2s_out_bytes_length (S : blake2s_state) : (blake2s_out_bytes S).length = 32 := rfl

/-- Claim C1, counterexample: hashing the empty string with 32-byte output
does not produce the digest quoted in the spec, whose 63 hex digits are
69217a3079908094e11121d042354a7c1f55b6482ca1a51e1b250dfd1ed0eee (digit
values listed below): the actual digest has 64 hex digits and ends in
eef9, not eee. -/
theorem blake2s_empty_digest_cex :
    (blake2s [] none 32 0).map hexDigits ≠
      some [6, 9, 2, 1, 7, 10, 3, 0, 7, 9, 9, 0, 8, 0, 9, 4,
            14, 1, 1, 1, 2, 1, 13, 0, 4, 2, 3, 5, 4, 10, 7, 12,
            1, 15, 5, 5, 11, 6, 4, 8, 2, 12, 10, 1, 10, 5, 1, 14,
            1, 11, 2, 5, 0, 13, 15, 13, 1, 14, 13, 0, 14, 14, 14] := by decide

/-- Claim C1, amended: the unkeyed one-shot hash with 32-byte output maps
the empty string to the digest with hex digits 69217a3079908094e11121d0
42354a7c1f55b6482ca1a51e1b250dfd1ed0eef9 and the string abc to the digest
with hex digits 508c5e8c327c14e2e1a72ba34eeb452f37458b209ed63a294d999b4c
86675982 (listed as hex digit values). -/
theorem blake2s_known_answers :
    (blake2s [] none 32 0).map hexDigits =
      some [6, 9, 2, 1, 7, 10, 3, 0, 7, 9, 9, 0, 8, 0, 9, 4,
            14, 1, 1, 1, 2, 1, 13, 0, 4, 2, 3, 5, 4, 10, 7, 12,
            1, 15, 5, 5, 11, 6, 4, 8, 2, 12, 10, 1, 10, 5, 1, 14,
            1, 11, 2, 5, 0, 13, 15, 13, 1, 14, 13, 0, 14, 14, 15, 9] ∧
    (blake2s [0x61, 0x62, 0x63] none 32 0).map hexDigits =
      some [5, 0, 8, 12, 5, 14, 8, 12, 3, 2, 7, 12, 1, 4, 14, 2,
            14, 1, 10, 7, 2, 11, 10, 3, 4, 14, 14, 11, 4, 5, 2, 15,
            3, 7, 4, 5, 8, 11, 2, 0, 9, 14, 13, 6, 3, 10, 2, 9,
            4, 13, 9, 9, 9, 11, 4, 12, 8, 6, 6, 7, 5, 9, 8, 2] := by
  constructor
  · decide
  · decide

/-- Claim C3, counterexample: the one-shot digest of the empty string with
output length 1 is the byte a1, which is not the first byte 69 of the
32-byte digest of the same input: digests of different requested lengths
are unrelated, because the digest length is folded into the parameter
block and hence into the initial chaining state. -/
theorem blake2s_outlen_truncation_cex :
    blake2s [] none 1 0 ≠ (blake2s [] none 32 0).map (List.take 1) := by decide

/-- Claim C3, amended: truncation consistency holds at the finalization
step: for one fixed state, blake2s_final with output length L yields the
first L bytes of blake2s_final with output length 32, because the final
serialization is always all 32 bytes and only the concluding copy
truncates. -/
theorem blake2s_final_outlen_take (S : blake2s_state) (outlen : Nat)
    (h : outlen ≤ BLAKE2S_OUTBYTES) :
    blake2s_final S outlen = (blake2s_final S BLAKE2S_OUTBYTES).take outlen := by
  simp only [blake2s_final]
  rw [List.take_take, Nat.min_eq_left h]

/-- Witness for the amended claim C3 at a concrete state and length. -/
theorem blake2s_final_outlen_take_witness :
    1 ≤ BLAKE2S_OUTBYTES ∧
    blake2s_final blake2s_init0 1 = (blake2s_final blake2s_init0 BLAKE2S_OUTBYTES).take 1 :=
  ⟨by decide, blake2s_final_outlen_take blake2s_init0 1 (by decide)⟩

/-- Claim C4, counterexample: with a valid output length, a present key
pointer and key length zero - a combination the claim says must succeed -
blake2s_init_key fails, because the source also rejects keylen equal to
zero (and a null key pointer regardless of keylen). -/
theorem blake2s_init_key_keylen_zero_cex :
    blake2s_init_key 32 (some [1]) 0 = none ∧
    ¬((32 : Nat) = 0 ∨ (32 : Nat) > BLAKE2S_OUTBYTES ∨ (0 : Nat) > BLAKE2S_KEYBYTES ∨
      ((some [1] : Option (List Nat)) = none ∧ (0 : Nat) > 0)) := by decide

/-- Claim C4, amended: blake2s_init_key fails exactly when outlen is 0 or
greater than 32, or the key pointer is absent, or keylen is 0, or keylen
exceeds 32; it succeeds in every other case. -/
theorem blake2s_init_key_none_iff (outlen keylen : Nat) (key : Option (List Nat)) :
    blake2s_init_key outlen key keylen = none ↔
      outlen = 0 ∨ outlen > BLAKE2S_OUTBYTES ∨ key = none ∨ keylen = 0 ∨
        keylen > BLAKE2S_KEYBYTES := by
  simp only [blake2s_init_key]
  split_ifs with h1 h2
  · simp only [true_iff]
    tauto
  · simp only [true_iff]
    tauto
  · simp only [reduceCtorEq, false_iff]
    tauto

/-- Claim C5: the source's load32 and store32 are raw word accesses whose
byte order follows the host machine, contradicting the required
host-independent little-endian semantics: on a little-endian host load32
matches the little-endian recombination, but on a big-endian host the
same four bytes decode to a different word, and store32 writes a
different byte sequence. -/
theorem load32_store32_host_byte_order :
    (∀ b0 b1 b2 b3 : Nat, load32 [b0, b1, b2, b3] =
        b0 + 2 ^ 8 * b1 + 2 ^ 16 * b2 + 2 ^ 24 * b3) ∧
    load32_host true [1, 0, 0, 0] = 2 ^ 24 ∧
    ((2 : Nat) ^ 24 ≠ 1) ∧
    store32_host false 1 = [1, 0, 0, 0] ∧
    store32_host true 1 = [0, 0, 0, 1] ∧
    store32_host true 1 ≠ store32_host false 1 := by
  refine ⟨?_, by decide, by decide, by decide, by decide, by decide⟩
  intro b0 b1 b2 b3
  simp only [load32, load32_host, Bool.false_eq_true, if_false, List.getD_cons_zero,
    List.getD_cons_succ]
  ring

/-- Claim C9: blake2s_increment_counter implements 64-bit addition with
wraparound on the split counter: the combined counter value after the
call is the value before plus the increment, modulo 2 to the 64. -/
theorem blake2s_increment_counter_add64 (S : blake2s_state) (inc : Nat)
    (ht0 : S.t0 < U32) (ht1 : S.t1 < U32) (hinc : inc < U32) :
    (blake2s_increment_counter S inc).t1 * U32 + (blake2s_increment_counter S inc).t0 =
      (S.t1 * U32 + S.t0 + inc) % (U32 * U32) := by
  simp only [blake2s_increment_counter, U32] at *
  split_ifs <;> omega

/-- Witness for claim C9 at a concrete low-word rollover. -/
theorem blake2s_increment_counter_add64_witness :
    ((4294967295 : Nat) < U32 ∧ (0 : Nat) < U32 ∧ (5 : Nat) < U32) ∧
    (blake2s_increment_counter
        (⟨blake2s_IV, 4294967295, 0, 0, 0, [], false⟩ : blake2s_state) 5).t1 * U32 +
      (blake2s_increment_counter
        (⟨blake2s_IV, 4294967295, 0, 0, 0, [], false⟩ : blake2s_state) 5).t0 =
      ((0 : Nat) * U32 + 4294967295 + 5) % (U32 * U32) :=
  ⟨⟨by decide, by decide, by decide⟩,
    blake2s_increment_counter_add64 (⟨blake2s_IV, 4294967295, 0, 0, 0, [], false⟩ : blake2s_state)
      5 (by decide) (by decide) (by decide)⟩

/-- Claim C2: for every message, key and output length, and every way of
splitting the message into chunks, initializing (keyed when keylen is
positive, unkeyed when it is zero), updating with each chunk in order and
finalizing produces exactly the digest of the one-shot blake2s on the
concatenation of the chunks.  The hypothesis matches the one-shot
function's coercion of an absent key to keylen 0. -/
theorem blake2s_incremental_eq_oneshot (chunks : List (List Nat))
    (key : Option (List Nat)) (outlen keylen : Nat) (hkey : key = none → keylen = 0) :
    blake2s_incremental outlen key keylen chunks = blake2s chunks.flatten key outlen keylen := by
  simp only [blake2s_incremental, blake2s, blake2s_update_foldl]
  cases key with
  | none =>
    have h0 : keylen = 0 := hkey rfl
    subst h0
    simp
  | some k =>
    by_cases hk : keylen > 0
    · simp [hk]
    · simp [hk]

/-- Witness for claim C2 on a concrete mid-chunk split. -/
theorem blake2s_incremental_eq_oneshot_witness :
    blake2s_incremental 32 none 0 [[1], [2, 3]] = blake2s [1, 2, 3] none 32 0 :=
  blake2s_incremental_eq_oneshot [[1], [2, 3]] none 32 0 (fun _ => rfl)

/-- Claim C6: on a state respecting the buffer bound, blake2s_update is a
no-op on empty input; appends without compressing or touching the counter
when the input fits the remaining buffer capacity; and otherwise fills
the buffer to exactly two blocks, adds exactly one block's worth (64) to
the counter, compresses exactly the first block of the filled buffer,
keeps the second block as the new buffer (leaving buflen 64), and
continues on the unconsumed input. -/
theorem blake2s_update_behaviour (S : blake2s_state) (inp : List Nat)
    (hbuf : S.buf.length ≤ 2 * BLAKE2S_BLOCKBYTES) :
    (inp = [] → blake2s_update S inp = S) ∧
    (inp.length + S.buf.length ≤ 2 * BLAKE2S_BLOCKBYTES →
      blake2s_update S inp = { S with buf := S.buf ++ inp }) ∧
    (inp.length + S.buf.length > 2 * BLAKE2S_BLOCKBYTES →
      blake2s_update S inp =
        blake2s_update
          { blake2s_compress
              (blake2s_increment_counter
                { S with buf := S.buf ++ inp.take (2 * BLAKE2S_BLOCKBYTES - S.buf.length) }
                BLAKE2S_BLOCKBYTES)
              ((S.buf ++ inp.take (2 * BLAKE2S_BLOCKBYTES - S.buf.length)).take
                BLAKE2S_BLOCKBYTES) with
            buf := (S.buf ++ inp.take (2 * BLAKE2S_BLOCKBYTES - S.buf.length)).drop
              BLAKE2S_BLOCKBYTES }
          (inp.drop (2 * BLAKE2S_BLOCKBYTES - S.buf.length)) ∧
      (S.buf ++ inp.take (2 * BLAKE2S_BLOCKBYTES - S.buf.length)).length =
        2 * BLAKE2S_BLOCKBYTES ∧
      ((S.buf ++ inp.take (2 * BLAKE2S_BLOCKBYTES - S.buf.length)).drop
        BLAKE2S_BLOCKBYTES).length = BLAKE2S_BLOCKBYTES) := by
  refine ⟨fun h => by rw [h, blake2s_update_nil],
    fun hle => blake2s_update_fits S inp (by omega), fun hgt => ?_⟩
  have hfill : inp.length > 2 * BLAKE2S_BLOCKBYTES - S.buf.length := by
    simp only [BLAKE2S_BLOCKBYTES] at *
    omega
  have hlen : (S.buf ++ inp.take (2 * BLAKE2S_BLOCKBYTES - S.buf.length)).length =
      2 * BLAKE2S_BLOCKBYTES := by
    simp only [List.length_append, List.length_take]
    rw [Nat.min_eq_left (Nat.le_of_lt hfill)]
    simp only [BLAKE2S_BLOCKBYTES] at *
    omega
  refine ⟨blake2s_update_step S inp hfill, hlen, ?_⟩
  rw [List.length_drop, hlen]
  omega

/-- Witness for claim C6: a three-byte update on a fresh state only
appends to the buffer. -/
theorem blake2s_update_behaviour_witness :
    blake2s_init0.buf.length ≤ 2 * BLAKE2S_BLOCKBYTES ∧
    blake2s_update blake2s_init0 [5] =
      { blake2s_init0 with buf := blake2s_init0.buf ++ [5] } :=
  ⟨by decide, (blake2s_update_behaviour blake2s_init0 [5] (by decide)).2.1 (by decide)⟩

/-- Claim C7: blake2s_final on a state respecting the buffer bound, in
sequential mode (last_node unset): when more than one block is buffered
it first adds one block (64) to the counter, compresses the first block
and shifts the remainder down; the remainder (of length buflen, possibly
zero) is then counted into the counter, f[0] is set to all ones with f[1]
untouched, the remainder is zero-padded to a full block and compressed,
and the first outlen bytes of the 32-byte little-endian serialization of
the chaining words are returned. -/
theorem blake2s_final_behaviour (S : blake2s_state) (outlen : Nat)
    (hbuf : S.buf.length ≤ 2 * BLAKE2S_BLOCKBYTES) (hnode : S.last_node = false) :
    (S.buf.length ≤ BLAKE2S_BLOCKBYTES →
      blake2s_final S outlen =
        (blake2s_out_bytes
          (blake2s_compress
            (blake2s_set_lastblock (blake2s_increment_counter S (S.buf.length % U32)))
            ((S.buf ++ List.replicate (2 * BLAKE2S_BLOCKBYTES - S.buf.length) 0).take
              BLAKE2S_BLOCKBYTES))).take outlen) ∧
    (S.buf.length > BLAKE2S_BLOCKBYTES →
      blake2s_final S outlen =
        blake2s_final
          { blake2s_compress (blake2s_increment_counter S BLAKE2S_BLOCKBYTES)
              (S.buf.take BLAKE2S_BLOCKBYTES) with
            buf := S.buf.drop BLAKE2S_BLOCKBYTES }
          outlen ∧
      (S.buf.drop BLAKE2S_BLOCKBYTES).length = S.buf.length - BLAKE2S_BLOCKBYTES) ∧
    (blake2s_set_lastblock (blake2s_increment_counter S (S.buf.length % U32))).f0 = U32 - 1 ∧
    (blake2s_set_lastblock (blake2s_increment_counter S (S.buf.length % U32))).f1 = S.f1 ∧
    (blake2s_out_bytes
      (blake2s_compress
        (blake2s_set_lastblock (blake2s_increment_counter S (S.buf.length % U32)))
        ((S.buf ++ List.replicate (2 * BLAKE2S_BLOCKBYTES - S.buf.length) 0).take
          BLAKE2S_BLOCKBYTES))).length = 32 := by
  refine ⟨fun hle => ?_, fun hgt => ⟨?_, List.length_drop _ _⟩,
    blake2s_set_lastblock_f0 _, blake2s_set_lastblock_f1 _ hnode,
    blake2s_out_bytes_length _⟩
  · simp only [blake2s_final]
    rw [if_neg (by omega)]
    simp only [blake2s_set_lastblock_buf, blake2s_increment_counter_buf]
  · have h2 : ¬ (S.buf.drop BLAKE2S_BLOCKBYTES).length > BLAKE2S_BLOCKBYTES := by
      simp only [List.length_drop, BLAKE2S_BLOCKBYTES] at hbuf ⊢
      omega
    simp only [blake2s_final, blake2s_increment_counter_buf, blake2s_compress_buf]
    rw [if_pos hgt, if_neg h2]

/-- Witness for claim C7 on a fresh state with an empty buffer. -/
theorem blake2s_final_behaviour_witness :
    blake2s_init0.buf.length ≤ 2 * BLAKE2S_BLOCKBYTES ∧
    blake2s_final blake2s_init0 32 =
      (blake2s_out_bytes
        (blake2s_compress
          (blake2s_set_lastblock
            (blake2s_increment_counter blake2s_init0 (blake2s_init0.buf.length % U32)))
          ((blake2s_init0.buf ++
            List.replicate (2 * BLAKE2S_BLOCKBYTES - blake2s_init0.buf.length) 0).take
            BLAKE2S_BLOCKBYTES))).take 32 :=
  ⟨by decide, (blake2s_final_behaviour blake2s_init0 32 (by decide) rfl).1 (by decide)⟩

/-- Claim C8: starting from a state respecting it, the buffer bound
buflen less than or equal to two blocks is preserved by blake2s_update,
and every block handed to the compression function during update or
finalize (as recorded by the instrumented loop, which computes the same
results) is exactly one 64-byte block taken from the front of the buffer
at that moment. -/
theorem blake2s_buffer_invariant (S : blake2s_state) (inp : List Nat) (outlen : Nat)
    (hbuf : S.buf.length ≤ 2 * BLAKE2S_BLOCKBYTES) :
    (blake2s_update S inp).buf.length ≤ 2 * BLAKE2S_BLOCKBYTES ∧
    (blake2s_update_trace S inp).1 = blake2s_update S inp ∧
    (∀ blk ∈ (blake2s_update_trace S inp).2, blk.length = BLAKE2S_BLOCKBYTES) ∧
    (blake2s_final_trace S outlen).1 = blake2s_final S outlen ∧
    ∀ blk ∈ (blake2s_final_trace S outlen).2, blk.length = BLAKE2S_BLOCKBYTES := by
  have h1 := blake2s_update_trace_go_blocks (inp.length + S.buf.length + 1) S inp hbuf
  refine ⟨?_, blake2s_update_trace_fst S inp, h1.2, blake2s_final_trace_fst S outlen,
    blake2s_final_trace_blocks S outlen hbuf⟩
  rw [← blake2s_update_trace_fst S inp]
  exact h1.1

/-- Witness for claim C8 on a fresh state and a short input. -/
theorem blake2s_buffer_invariant_witness :
    blake2s_init0.buf.length ≤ 2 * BLAKE2S_BLOCKBYTES ∧
    (blake2s_update blake2s_init0 [1, 2, 3]).buf.length ≤ 2 * BLAKE2S_BLOCKBYTES :=
  ⟨by decide, (blake2s_buffer_invariant blake2s_init0 [1, 2, 3] 32 (by decide)).1⟩

/-- Claim C10: after a successful blake2s_init_key, no compression has
happened yet: both counter words are zero and the buffer holds exactly
one block, namely the key bytes followed by zeros, because the key block
is only consumed lazily by the next update or by finalization. -/
theorem blake2s_init_key_lazy_key_block (outlen keylen : Nat) (k : List Nat)
    (S : blake2s_state) (hk : keylen ≤ k.length)
    (h : blake2s_init_key outlen (some k) keylen = some S) :
    S.t0 = 0 ∧ S.t1 = 0 ∧ S.buf.length = BLAKE2S_BLOCKBYTES ∧
    S.buf = k.take keylen ++ List.replicate (BLAKE2S_BLOCKBYTES - keylen) 0 := by
  simp only [blake2s_init_key] at h
  by_cases h1 : outlen = 0 ∨ outlen > BLAKE2S_OUTBYTES
  · rw [if_pos h1] at h
    exact absurd h (by simp)
  · rw [if_neg h1] at h
    by_cases h2 : (some k : Option (List Nat)) = none ∨ keylen = 0 ∨
        keylen > BLAKE2S_KEYBYTES
    · rw [if_pos h2] at h
      exact absurd h (by simp)
    · rw [if_neg h2] at h
      push_neg at h2
      simp only [Option.getD_some, Option.some.injEq] at h
      subst h
      have hxlen : (k.take keylen).length = keylen := by
        rw [List.length_take, Nat.min_eq_left hk]
      have hblock : ((k.take keylen ++ List.replicate BLAKE2S_BLOCKBYTES 0).take
          BLAKE2S_BLOCKBYTES) =
          k.take keylen ++ List.replicate (BLAKE2S_BLOCKBYTES - keylen) 0 := by
        rw [List.take_append_eq_append_take,
          List.take_of_length_le (by
            rw [hxlen]
            simp only [BLAKE2S_KEYBYTES, BLAKE2S_BLOCKBYTES] at *
            omega),
          List.take_replicate, hxlen, Nat.min_eq_left (by omega)]
      have hb0 : (blake2s_init_param (blake2s_param_seq outlen keylen)).buf.length = 0 := rfl
      rw [hblock, blake2s_update_fits _ _ (by
        rw [hb0]
        simp only [List.length_append, List.length_replicate, hxlen]
        simp only [BLAKE2S_KEYBYTES, BLAKE2S_BLOCKBYTES] at *
        omega)]
      refine ⟨rfl, rfl, ?_, ?_⟩
      · show (([] : List Nat) ++
            (k.take keylen ++ List.replicate (BLAKE2S_BLOCKBYTES - keylen) 0)).length =
          BLAKE2S_BLOCKBYTES
        simp only [List.nil_append, List.length_append, List.length_replicate, hxlen]
        simp only [BLAKE2S_KEYBYTES, BLAKE2S_BLOCKBYTES] at *
        omega
      · show ([] : List Nat) ++
            (k.take keylen ++ List.replicate (BLAKE2S_BLOCKBYTES - keylen) 0) =
          k.take keylen ++ List.replicate (BLAKE2S_BLOCKBYTES - keylen) 0
        exact List.nil_append _

/-- Witness for claim C10 with the one-byte key 07: after keyed
initialization the buffer is the key byte followed by 63 zeros. -/
theorem blake2s_init_key_lazy_key_block_witness :
    (1 ≤ ([7] : List Nat).length) ∧
    (({ h := [1795745607, 3144134277, 1013904242, 2773480762,
              1359893119, 2600822924, 528734635, 1541459225],
        t0 := 0, t1 := 0, f0 := 0, f1 := 0,
        buf := 7 :: List.replicate 63 0, last_node := false } : blake2s_state).buf =
      ([7] : List Nat).take 1 ++ List.replicate (BLAKE2S_BLOCKBYTES - 1) 0) :=
  ⟨by decide,
    (blake2s_init_key_lazy_key_block 32 1 [7]
      ({ h := [1795745607, 3144134277, 1013904242, 2773480762,
               1359893119, 2600822924, 528734635, 1541459225],
         t0 := 0, t1 := 0, f0 := 0, f1 := 0,
         buf := 7 :: List.replicate 63 0, last_node := false } : blake2s_state)
      (by decide) (by decide)).2.2.2⟩

end Blake2s
